import Mathlib

/-!
Verification of the transcript segmentation core of the
TranscriptionSummarizationApp (src/app.py, lines 155-171).

The segmenter consumes an ordered list of recognition results, each holding
ranked alternatives; an alternative has a transcript string and an optional
word list, where every word carries a speaker tag.  The loop builds two
strings: `transcript_text` (the speaker-labelled document) and
`full_raw_text` (the flat transcript fed to the summarizer).  Both are
stripped of surrounding whitespace before being used.
-/

namespace TSApp

/-- A recognized token with its diarization speaker tag
(`word_info.word`, `word_info.speaker_tag` in the source). -/
structure WordInfo where
  word : String
  speaker_tag : Int
deriving DecidableEq

/-- One ranked hypothesis of a result (`result.alternatives[i]`):
a transcript string and a possibly empty word list. -/
structure Alternative where
  transcript : String
  words : List WordInfo
deriving DecidableEq

/-- One unit of the recognizer response stream (`response.results[i]`). -/
structure RecognitionResult where
  alternatives : List Alternative
deriving DecidableEq

/-- The mutable state threaded through the loop of src/app.py:155-170:
`transcript_text`, `current_speaker` and `full_raw_text`. -/
structure SegState where
  transcript_text : String
  current_speaker : Int
  full_raw_text : String
deriving DecidableEq

/-- Initial state: `transcript_text = ""`, `current_speaker = -1`,
`full_raw_text = ""` (src/app.py:155-157). -/
def initState : SegState := ⟨"", -1, ""⟩

/-- The speaker label the source emits for a tag:
the f-string `**話者 {word_info.speaker_tag}:**` plus the newline
(src/app.py:164). -/
def speakerLabel (t : Int) : String := "**話者 " ++ toString t ++ ":**\n"

/-- The body of the inner word loop (src/app.py:160-167): on a tag change,
append a blank-line separator (unless no speaker was seen yet) and a fresh
speaker label, and update `current_speaker`; in every case append the word
plus one space to both accumulated strings. -/
def processWord (s : SegState) (w : WordInfo) : SegState :=
  if w.speaker_tag ≠ s.current_speaker then
    { transcript_text := s.transcript_text ++
        (if s.current_speaker ≠ -1 then "\n\n" else "") ++
        speakerLabel w.speaker_tag ++ w.word ++ " ",
      current_speaker := w.speaker_tag,
      full_raw_text := s.full_raw_text ++ w.word ++ " " }
  else
    { transcript_text := s.transcript_text ++ w.word ++ " ",
      current_speaker := s.current_speaker,
      full_raw_text := s.full_raw_text ++ w.word ++ " " }

/-- The body of the outer result loop (src/app.py:158-170).  Python
truthiness: the word branch runs when `result.alternatives` is nonempty and
the top alternative has a nonempty word list; the `elif` branch runs when
`result.alternatives` is nonempty (words empty) and appends the top
transcript plus a newline to both strings; a result with no alternatives
contributes nothing. -/
def processResult (s : SegState) (r : RecognitionResult) : SegState :=
  match r.alternatives with
  | [] => s
  | alt :: _ =>
    if alt.words ≠ [] then
      alt.words.foldl processWord s
    else
      { s with transcript_text := s.transcript_text ++ alt.transcript ++ "\n",
               full_raw_text := s.full_raw_text ++ alt.transcript ++ "\n" }

/-- The whole reduction of src/app.py:155-170 over the result list. -/
def segmentResults (rs : List RecognitionResult) : SegState :=
  rs.foldl processResult initState

/-- Python `str.strip()` on a character list: drop whitespace from both
ends. -/
def pyStrip (l : List Char) : List Char :=
  ((l.dropWhile Char.isWhitespace).reverse.dropWhile Char.isWhitespace).reverse

/-- Python `str.strip()` on a string. -/
def stripStr (s : String) : String := ⟨pyStrip s.data⟩

/-- The Document handed to the display collaborator:
`transcript_text.strip()` (src/app.py:171). -/
def documentOf (rs : List RecognitionResult) : String :=
  stripStr (segmentResults rs).transcript_text

/-- The FlatTranscript handed to the summarization collaborator:
`full_raw_text.strip()` (src/app.py:181). -/
def flatTranscriptOf (rs : List RecognitionResult) : String :=
  stripStr (segmentResults rs).full_raw_text

/-! ## Structural view of the document

The source only builds a string; to state segment-level properties we also
build the document as a list of blocks mirroring the loop decision for
decision, and prove below that rendering the blocks reproduces
`transcript_text` exactly. -/

/-- A piece of the document: a speaker-labelled segment (with the flag
telling whether a blank-line separator preceded its label), or raw
unlabelled text (the no-word-list branch, including any words the loop
appends right after it without a fresh label). -/
inductive Block where
  | seg (brk : Bool) (tag : Int) (ws : List String) : Block
  | raw (text : String) : Block
deriving DecidableEq

/-- Structural counterpart of `SegState`: the blocks are kept most recent
first. -/
structure DocState where
  blocks : List Block
  current_speaker : Int
  full_raw_text : String
deriving DecidableEq

/-- Structural initial state. -/
def initDoc : DocState := ⟨[], -1, ""⟩

/-- Append a word (the same-tag case) to the most recent block, exactly
where the source string grows. -/
def pushWord (blocks : List Block) (w : String) : List Block :=
  match blocks with
  | [] => [Block.raw (w ++ " ")]
  | Block.seg brk t ws :: rest => Block.seg brk t (ws ++ [w]) :: rest
  | Block.raw s :: rest => Block.raw (s ++ w ++ " ") :: rest

/-- Structural counterpart of `processWord`. -/
def processWordD (d : DocState) (w : WordInfo) : DocState :=
  if w.speaker_tag ≠ d.current_speaker then
    { blocks := Block.seg (decide (d.current_speaker ≠ -1)) w.speaker_tag
        [w.word] :: d.blocks,
      current_speaker := w.speaker_tag,
      full_raw_text := d.full_raw_text ++ w.word ++ " " }
  else
    { blocks := pushWord d.blocks w.word,
      current_speaker := d.current_speaker,
      full_raw_text := d.full_raw_text ++ w.word ++ " " }

/-- Structural counterpart of `processResult`. -/
def processResultD (d : DocState) (r : RecognitionResult) : DocState :=
  match r.alternatives with
  | [] => d
  | alt :: _ =>
    if alt.words ≠ [] then
      alt.words.foldl processWordD d
    else
      { d with blocks := Block.raw (alt.transcript ++ "\n") :: d.blocks,
               full_raw_text := d.full_raw_text ++ alt.transcript ++ "\n" }

/-- Structural reduction over the result list. -/
def docOf (rs : List RecognitionResult) : DocState :=
  rs.foldl processResultD initDoc

/-- Text of a segment body: every word followed by one space. -/
def wordsText (ws : List String) : String :=
  ws.foldl (fun a w => a ++ w ++ " ") ""

/-- Render one block the way the source concatenates it. -/
def renderBlock : Block → String
  | Block.seg brk t ws =>
      (if brk then "\n\n" else "") ++ speakerLabel t ++ wordsText ws
  | Block.raw s => s

/-- Render an in-order block list. -/
def renderDoc (blocks : List Block) : String :=
  blocks.foldl (fun a b => a ++ renderBlock b) ""

/-- Speaker tag of a block, `none` for raw text. -/
def blockTag : Block → Option Int
  | Block.seg _ t _ => some t
  | Block.raw _ => none

/-- Tags of the labelled segments, most recent first. -/
def segTagsRev (d : DocState) : List Int := d.blocks.filterMap blockTag

/-- Tags of the labelled segments of the finished document, in document
order. -/
def docSegTags (rs : List RecognitionResult) : List Int :=
  ((docOf rs).blocks.reverse).filterMap blockTag

/-- The string state a structural state denotes. -/
def SegState.ofDoc (d : DocState) : SegState :=
  ⟨renderDoc d.blocks.reverse, d.current_speaker, d.full_raw_text⟩

/-- Invariant carried by the loop: the labelled-segment tags (most recent
first) never repeat consecutively, and the most recent label equals
`current_speaker`. -/
def tagInv (d : DocState) : Prop :=
  List.Chain' (fun a b => a ≠ b) (segTagsRev d) ∧
  ∀ t, (segTagsRev d).head? = some t → t = d.current_speaker

/-- The text a word list contributes to the flat transcript (and, when no
label is emitted, to the document): every word followed by one space. -/
def wordsRaw : List WordInfo → String
  | [] => ""
  | w :: ws => w.word ++ " " ++ wordsRaw ws

/-- What one result contributes to `full_raw_text`: its word texts when the
top alternative has words, its transcript plus a newline when it has none,
nothing when it has no alternatives. -/
def rawChunk (r : RecognitionResult) : String :=
  match r.alternatives with
  | [] => ""
  | alt :: _ =>
    if alt.words ≠ [] then wordsRaw alt.words else alt.transcript ++ "\n"

/-- Concatenation of the per-result contributions to the flat text. -/
def flatChunks : List RecognitionResult → String
  | [] => ""
  | r :: rs => rawChunk r ++ flatChunks rs

/-- Count maximal whitespace-free runs, threading whether the scan stands
inside such a run. -/
def countTokensAux : List Char → Bool → Nat
  | [], _ => 0
  | c :: cs, inTok =>
    if c.isWhitespace then countTokensAux cs false
    else (if inTok then 0 else 1) + countTokensAux cs true

/-- Number of whitespace-separated words of a character list. -/
def countTokens (l : List Char) : Nat := countTokensAux l false

/-- The in-a-run flag after scanning a character list. -/
def stateAfter : List Char → Bool → Bool
  | [], s => s
  | c :: cs, _ => stateAfter cs (!c.isWhitespace)

/-- A word string as the recognizer emits it: nonempty and free of
whitespace, so it reads as exactly one word. -/
def isToken (w : String) : Bool :=
  !w.data.isEmpty && w.data.all (fun c => !c.isWhitespace)

/-- The word count one result is expected to contribute: its WordInfo count
when the top alternative has words, the word count of its transcript when
it has none, zero without alternatives. -/
def resultWordCount (r : RecognitionResult) : Nat :=
  match r.alternatives with
  | [] => 0
  | alt :: _ =>
    if alt.words ≠ [] then alt.words.length else countTokens alt.transcript.data

/-- Forget the speaker tag of a word (for stating that the flat transcript
ignores tags). -/
def eraseTagW (w : WordInfo) : WordInfo := ⟨w.word, 0⟩

/-- Forget the speaker tags of an alternative. -/
def eraseTagA (a : Alternative) : Alternative :=
  ⟨a.transcript, a.words.map eraseTagW⟩

/-- Forget the speaker tags of a result. -/
def eraseTag (r : RecognitionResult) : RecognitionResult :=
  ⟨r.alternatives.map eraseTagA⟩

/-! ## Rendering the structural document reproduces the source string -/

theorem wordsText_append (ws : List String) (w : String) :
    wordsText (ws ++ [w]) = wordsText ws ++ w ++ " " := by
  simp [wordsText, List.foldl_append]

theorem renderDoc_append (l : List Block) (b : Block) :
    renderDoc (l ++ [b]) = renderDoc l ++ renderBlock b := by
  simp [renderDoc, List.foldl_append]

theorem renderDoc_reverse_cons (b : Block) (rest : List Block) :
    renderDoc ((b :: rest).reverse) = renderDoc rest.reverse ++ renderBlock b := by
  rw [List.reverse_cons, renderDoc_append]

theorem renderDoc_pushWord (blocks : List Block) (w : String) :
    renderDoc ((pushWord blocks w).reverse) =
      renderDoc blocks.reverse ++ w ++ " " := by
  match blocks with
  | [] =>
      simp [pushWord, renderDoc, renderBlock, String.empty_append,
        String.append_assoc]
  | Block.seg brk t ws :: rest =>
      rw [pushWord, renderDoc_reverse_cons, renderDoc_reverse_cons]
      simp [renderBlock, wordsText_append, String.append_assoc]
  | Block.raw s :: rest =>
      rw [pushWord, renderDoc_reverse_cons, renderDoc_reverse_cons]
      simp [renderBlock, String.append_assoc]

theorem ofDoc_processWord (d : DocState) (w : WordInfo) :
    SegState.ofDoc (processWordD d w) = processWord (SegState.ofDoc d) w := by
  by_cases h : w.speaker_tag = d.current_speaker
  · simp [processWordD, processWord, SegState.ofDoc, h, renderDoc_pushWord]
  · simp only [processWordD, processWord, SegState.ofDoc, h, if_pos, if_neg,
      ne_eq, not_false_iff, ite_true, ite_false, not_false_eq_true]
    rw [renderDoc_reverse_cons]
    by_cases hc : d.current_speaker = -1 <;>
      simp [hc, renderBlock, wordsText, String.empty_append,
        String.append_empty, String.append_assoc]

theorem ofDoc_foldl_words (ws : List WordInfo) (d : DocState) :
    SegState.ofDoc (ws.foldl processWordD d) =
      ws.foldl processWord (SegState.ofDoc d) := by
  induction ws generalizing d with
  | nil => rfl
  | cons w ws ih => rw [List.foldl_cons, List.foldl_cons, ih, ofDoc_processWord]

theorem ofDoc_processResult (d : DocState) (r : RecognitionResult) :
    SegState.ofDoc (processResultD d r) = processResult (SegState.ofDoc d) r := by
  match r with
  | ⟨[]⟩ => rfl
  | ⟨alt :: rest⟩ =>
      by_cases hw : alt.words = []
      · simp [processResultD, processResult, hw, SegState.ofDoc,
          renderDoc_reverse_cons, renderDoc_append, renderBlock,
          String.append_assoc]
      · simp only [processResultD, processResult, hw, ne_eq,
          not_false_eq_true, ite_true]
        exact ofDoc_foldl_words alt.words d

theorem ofDoc_docOf (rs : List RecognitionResult) :
    SegState.ofDoc (docOf rs) = segmentResults rs := by
  have key : ∀ (l : List RecognitionResult) (d : DocState),
      SegState.ofDoc (l.foldl processResultD d) =
        l.foldl processResult (SegState.ofDoc d) := by
    intro l
    induction l with
    | nil => intro d; rfl
    | cons r l ih =>
        intro d
        rw [List.foldl_cons, List.foldl_cons, ih, ofDoc_processResult]
  have h0 : SegState.ofDoc initDoc = initState := rfl
  rw [segmentResults, docOf, key, h0]

theorem docOf_full_raw (rs : List RecognitionResult) :
    (docOf rs).full_raw_text = (segmentResults rs).full_raw_text :=
  congrArg SegState.full_raw_text (ofDoc_docOf rs)

theorem docOf_current_speaker (rs : List RecognitionResult) :
    (docOf rs).current_speaker = (segmentResults rs).current_speaker :=
  congrArg SegState.current_speaker (ofDoc_docOf rs)

theorem renderDoc_docOf (rs : List RecognitionResult) :
    renderDoc (docOf rs).blocks.reverse =
      (segmentResults rs).transcript_text :=
  congrArg SegState.transcript_text (ofDoc_docOf rs)

/-! ## The adjacency-merge invariant -/

theorem filterMap_pushWord (blocks : List Block) (w : String) :
    (pushWord blocks w).filterMap blockTag = blocks.filterMap blockTag := by
  match blocks with
  | [] => simp [pushWord, blockTag]
  | Block.seg brk t ws :: rest => simp [pushWord, blockTag]
  | Block.raw s :: rest => simp [pushWord, blockTag]

theorem tagInv_processWordD (d : DocState) (w : WordInfo) (h : tagInv d) :
    tagInv (processWordD d w) := by
  by_cases ht : w.speaker_tag = d.current_speaker
  · have hb : segTagsRev (processWordD d w) = segTagsRev d := by
      simp [processWordD, ht, segTagsRev, filterMap_pushWord]
    have hc : (processWordD d w).current_speaker = d.current_speaker := by
      simp [processWordD, ht]
    exact ⟨hb ▸ h.1, fun t hh => hc ▸ h.2 t (hb ▸ hh)⟩
  · have hb : segTagsRev (processWordD d w) =
        w.speaker_tag :: segTagsRev d := by
      simp [processWordD, ht, segTagsRev, blockTag]
    have hc : (processWordD d w).current_speaker = w.speaker_tag := by
      simp [processWordD, ht]
    constructor
    · rw [hb]
      refine List.chain'_cons'.mpr ⟨?_, h.1⟩
      intro y hy
      rw [h.2 y hy]
      exact ht
    · intro t hh
      rw [hb] at hh
      simp only [List.head?_cons, Option.some.injEq] at hh
      rw [hc, ← hh]

theorem tagInv_foldl_words (ws : List WordInfo) (d : DocState)
    (h : tagInv d) : tagInv (ws.foldl processWordD d) := by
  induction ws generalizing d with
  | nil => exact h
  | cons w ws ih => exact ih _ (tagInv_processWordD d w h)

theorem tagInv_processResultD (d : DocState) (r : RecognitionResult)
    (h : tagInv d) : tagInv (processResultD d r) := by
  match r with
  | ⟨[]⟩ => exact h
  | ⟨alt :: rest⟩ =>
      by_cases hw : alt.words = []
      · have hb : segTagsRev (processResultD d ⟨alt :: rest⟩) = segTagsRev d := by
          simp [processResultD, hw, segTagsRev, blockTag]
        have hc : (processResultD d ⟨alt :: rest⟩).current_speaker =
            d.current_speaker := by
          simp [processResultD, hw]
        exact ⟨hb ▸ h.1, fun t hh => hc ▸ h.2 t (hb ▸ hh)⟩
      · simp only [processResultD, hw, ne_eq, not_false_eq_true, ite_true]
        exact tagInv_foldl_words alt.words d h

theorem tagInv_docOf (rs : List RecognitionResult) : tagInv (docOf rs) := by
  have key : ∀ (l : List RecognitionResult) (d : DocState),
      tagInv d → tagInv (l.foldl processResultD d) := by
    intro l
    induction l with
    | nil => exact fun d h => h
    | cons r l ih => exact fun d h => ih _ (tagInv_processResultD d r h)
  refine key rs initDoc ?_
  constructor
  · simp [segTagsRev, initDoc]
  · intro t hh
    simp [segTagsRev, initDoc] at hh

theorem foldl_processWord_same (ws : List WordInfo) (s : SegState)
    (h : ∀ w ∈ ws, w.speaker_tag = s.current_speaker) :
    ws.foldl processWord s =
      { s with transcript_text := s.transcript_text ++ wordsRaw ws,
               full_raw_text := s.full_raw_text ++ wordsRaw ws } := by
  induction ws generalizing s with
  | nil => simp [wordsRaw, String.append_empty]
  | cons w ws ih =>
      have hw : w.speaker_tag = s.current_speaker := h w (by simp)
      rw [List.foldl_cons]
      have hstep : processWord s w =
          { s with transcript_text := s.transcript_text ++ w.word ++ " ",
                   full_raw_text := s.full_raw_text ++ w.word ++ " " } := by
        simp [processWord, hw]
      rw [hstep,
        ih { transcript_text := s.transcript_text ++ w.word ++ " ",
             current_speaker := s.current_speaker,
             full_raw_text := s.full_raw_text ++ w.word ++ " " }
          (fun x hx => h x (by simp [hx]))]
      simp [wordsRaw, String.append_assoc]

theorem foldl_processWordD_same (ws : List WordInfo) (d : DocState)
    (h : ∀ w ∈ ws, w.speaker_tag = d.current_speaker) :
    segTagsRev (ws.foldl processWordD d) = segTagsRev d ∧
    (ws.foldl processWordD d).current_speaker = d.current_speaker := by
  induction ws generalizing d with
  | nil => exact ⟨rfl, rfl⟩
  | cons w ws ih =>
      have hw : w.speaker_tag = d.current_speaker := h w (by simp)
      rw [List.foldl_cons]
      have hb : segTagsRev (processWordD d w) = segTagsRev d := by
        simp [processWordD, hw, segTagsRev, filterMap_pushWord]
      have hc : (processWordD d w).current_speaker = d.current_speaker := by
        simp [processWordD, hw]
      have := ih (processWordD d w) (fun x hx => by rw [hc]; exact h x (by simp [hx]))
      exact ⟨this.1.trans hb, this.2.trans hc⟩

/-! ## Claim theorems: concrete examples and branch semantics -/

/-- Claim C2: in the finished document, the labelled segments never carry
the same tag twice in a row — a label is only emitted on a tag change and
`current_speaker` always equals the most recent label, so two adjacent
labelled segments always differ. -/
theorem c2_adjacent_tags_differ (rs : List RecognitionResult) :
    List.Chain' (fun a b => a ≠ b) (docSegTags rs) := by
  have h := (tagInv_docOf rs).1
  rw [docSegTags, List.filterMap_reverse, List.chain'_reverse]
  exact List.Chain'.imp (fun a b hab => Ne.symm hab) h

/-- Claim C7: result boundaries are transparent.  When every word of a new
result's top alternative carries the tag already in `current_speaker`, the
words continue the open segment: the document grows only by the word texts
(no label, no blank-line break), no labelled segment is created, and the
current speaker is unchanged. -/
theorem c7_result_boundary_transparent (s : SegState) (d : DocState)
    (alt : Alternative) (rest : List Alternative) (hw : alt.words ≠ [])
    (ht : ∀ w ∈ alt.words, w.speaker_tag = s.current_speaker)
    (hd : d.current_speaker = s.current_speaker) :
    processResult s ⟨alt :: rest⟩ =
      { s with transcript_text := s.transcript_text ++ wordsRaw alt.words,
               full_raw_text := s.full_raw_text ++ wordsRaw alt.words } ∧
    segTagsRev (processResultD d ⟨alt :: rest⟩) = segTagsRev d ∧
    (processResultD d ⟨alt :: rest⟩).current_speaker = d.current_speaker := by
  refine ⟨?_, ?_, ?_⟩
  · simp only [processResult, hw, ne_eq, not_false_eq_true, ite_true]
    exact foldl_processWord_same alt.words s ht
  · simp only [processResultD, hw, ne_eq, not_false_eq_true, ite_true]
    exact (foldl_processWordD_same alt.words d
      (fun w hx => by rw [hd]; exact ht w hx)).1
  · simp only [processResultD, hw, ne_eq, not_false_eq_true, ite_true]
    exact (foldl_processWordD_same alt.words d
      (fun w hx => by rw [hd]; exact ht w hx)).2

/-- Witness for Claim C7: a second result whose single word keeps tag 1
appends only the word, emits no label and creates no segment. -/
theorem c7_result_boundary_transparent_witness :
    processResult ⟨"**話者 1:**\nA ", 1, "A "⟩ ⟨[⟨"", [⟨"B", 1⟩]⟩]⟩ =
      ⟨"**話者 1:**\nA B ", 1, "A B "⟩ ∧
    segTagsRev (processResultD ⟨[Block.seg false 1 ["A"]], 1, "A "⟩
        ⟨[⟨"", [⟨"B", 1⟩]⟩]⟩) =
      segTagsRev ⟨[Block.seg false 1 ["A"]], 1, "A "⟩ ∧
    (processResultD ⟨[Block.seg false 1 ["A"]], 1, "A "⟩
        ⟨[⟨"", [⟨"B", 1⟩]⟩]⟩).current_speaker = 1 := by
  have h := c7_result_boundary_transparent ⟨"**話者 1:**\nA ", 1, "A "⟩
    ⟨[Block.seg false 1 ["A"]], 1, "A "⟩ ⟨"", [⟨"B", 1⟩]⟩ []
    (by decide) (by decide) rfl
  refine ⟨?_, h.2.1, h.2.2⟩
  rw [h.1]
  decide

/-- Claim C9: segmenting an empty result sequence yields an empty Document
and an empty FlatTranscript after the final trim. -/
theorem c9_empty_input : documentOf [] = "" ∧ flatTranscriptOf [] = "" :=
  ⟨rfl, rfl⟩

/-- Claim C4 counterexample: on the input with WordInfo
Hello/1, there/1, Bob/2 the produced Document is not the string
`Speaker 1:\nHello there \n\nSpeaker 2:\nBob` the claim demands, because the
source renders labels as `**話者 N:**`, not `Speaker N:`. -/
theorem c4_label_format_counterexample :
    documentOf [⟨[⟨"", [⟨"Hello", 1⟩, ⟨"there", 1⟩, ⟨"Bob", 2⟩]⟩]⟩] ≠
      "Speaker 1:\nHello there \n\nSpeaker 2:\nBob" := by
  decide

/-- Claim C4 (amended): on the input with WordInfo Hello/1, there/1, Bob/2,
the Document is `**話者 1:**\nHello there \n\n**話者 2:**\nBob` (labels are
rendered as `**話者 N:**` followed by a newline, segment breaks are blank
lines) and the FlatTranscript is `Hello there Bob`. -/
theorem c4_example_amended :
    documentOf [⟨[⟨"", [⟨"Hello", 1⟩, ⟨"there", 1⟩, ⟨"Bob", 2⟩]⟩]⟩] =
      "**話者 1:**\nHello there \n\n**話者 2:**\nBob" ∧
    flatTranscriptOf [⟨[⟨"", [⟨"Hello", 1⟩, ⟨"there", 1⟩, ⟨"Bob", 2⟩]⟩]⟩] =
      "Hello there Bob" := by
  constructor <;> decide

/-- Claim C6: a single result whose words carry tags 1, 2, 1 produces
exactly three labelled segments, in order tag 1 (text A), tag 2 (text B),
tag 1 again (text C): a non-adjacent recurrence of a tag is not merged. -/
theorem c6_alternating_tags :
    (docOf [⟨[⟨"", [⟨"A", 1⟩, ⟨"B", 2⟩, ⟨"C", 1⟩]⟩]⟩]).blocks.reverse =
      [Block.seg false 1 ["A"], Block.seg true 2 ["B"],
       Block.seg true 1 ["C"]] ∧
    docSegTags [⟨[⟨"", [⟨"A", 1⟩, ⟨"B", 2⟩, ⟨"C", 1⟩]⟩]⟩] = [1, 2, 1] := by
  constructor <;> decide

/-- Claim C3 counterexample: a malformed result (top alternative with empty
transcript and no words) does NOT contribute nothing: inserting it between
two one-word results changes the accumulated flat text (it injects a
newline), so the claim as stated is false. -/
theorem c3_malformed_counterexample :
    (segmentResults [⟨[⟨"", [⟨"A", 1⟩]⟩]⟩, ⟨[⟨"", []⟩]⟩,
        ⟨[⟨"", [⟨"B", 1⟩]⟩]⟩]).full_raw_text ≠
      (segmentResults [⟨[⟨"", [⟨"A", 1⟩]⟩]⟩,
        ⟨[⟨"", [⟨"B", 1⟩]⟩]⟩]).full_raw_text := by
  decide

/-- Claim C3 (amended): a malformed result is handled by the no-word-list
branch, never raises, and contributes exactly one newline character to both
the document text and the flat text, leaving `current_speaker` unchanged
(the segmenter is a total function, so it cannot fail). -/
theorem c3_malformed_amended (s : SegState) (d : DocState) (alt : Alternative)
    (rest : List Alternative) (h1 : alt.transcript = "")
    (h2 : alt.words = []) :
    processResult s ⟨alt :: rest⟩ =
      { s with transcript_text := s.transcript_text ++ "\n",
               full_raw_text := s.full_raw_text ++ "\n" } ∧
    processResultD d ⟨alt :: rest⟩ =
      { d with blocks := Block.raw "\n" :: d.blocks,
               full_raw_text := d.full_raw_text ++ "\n" } := by
  constructor <;>
    simp [processResult, processResultD, h1, h2, String.append_empty,
      String.empty_append]

/-- Witness for Claim C3 (amended) at a concrete malformed alternative. -/
theorem c3_malformed_amended_witness :
    processResult ⟨"x ", 1, "x "⟩ ⟨[⟨"", []⟩]⟩ = ⟨"x \n", 1, "x \n"⟩ ∧
    processResultD ⟨[], -1, ""⟩ ⟨[⟨"", []⟩]⟩ = ⟨[Block.raw "\n"], -1, "\n"⟩ :=
  c3_malformed_amended ⟨"x ", 1, "x "⟩ ⟨[], -1, ""⟩ ⟨"", []⟩ [] rfl rfl

/-- Claim C5: a result whose top alternative has no words but a (nonempty)
transcript appends that transcript as its own raw, unlabelled block followed
by a line break, to both the document and the flat text, and leaves
`current_speaker` untouched; structurally the text becomes a `Block.raw`, so
it is not merged under the preceding labelled segment. -/
theorem c5_no_words_branch (s : SegState) (d : DocState) (alt : Alternative)
    (rest : List Alternative) (hw : alt.words = [])
    (ht : alt.transcript ≠ "") :
    processResult s ⟨alt :: rest⟩ =
      { s with transcript_text := s.transcript_text ++ alt.transcript ++ "\n",
               full_raw_text := s.full_raw_text ++ alt.transcript ++ "\n" } ∧
    processResultD d ⟨alt :: rest⟩ =
      { d with blocks := Block.raw (alt.transcript ++ "\n") :: d.blocks,
               full_raw_text :=
                 d.full_raw_text ++ alt.transcript ++ "\n" } := by
  constructor <;> simp [processResult, processResultD, hw]

/-- Witness for Claim C5 at a concrete no-word-list alternative. -/
theorem c5_no_words_branch_witness :
    processResult ⟨"", -1, ""⟩ ⟨[⟨"short phrase.", []⟩]⟩ =
      ⟨"short phrase.\n", -1, "short phrase.\n"⟩ ∧
    processResultD ⟨[], -1, ""⟩ ⟨[⟨"short phrase.", []⟩]⟩ =
      ⟨[Block.raw "short phrase.\n"], -1, "short phrase.\n"⟩ :=
  c5_no_words_branch ⟨"", -1, ""⟩ ⟨[], -1, ""⟩ ⟨"short phrase.", []⟩ []
    rfl (by decide)

/-- Claim C8: the sentinel `current_speaker` starts as the negative value
-1, which no legitimate tag takes, so a word tagged 0 is a normal tag: it
opens a labelled segment (label `**話者 0:**`) and sets the current speaker
to 0, for any word and transcript string. -/
theorem c8_tag_zero_valid (w tr : String) :
    initState.current_speaker = -1 ∧ initState.current_speaker < 0 ∧
    (segmentResults [⟨[⟨tr, [⟨w, 0⟩]⟩]⟩]).transcript_text =
      speakerLabel 0 ++ w ++ " " ∧
    (docOf [⟨[⟨tr, [⟨w, 0⟩]⟩]⟩]).blocks = [Block.seg false 0 [w]] ∧
    (segmentResults [⟨[⟨tr, [⟨w, 0⟩]⟩]⟩]).current_speaker = 0 := by
  refine ⟨rfl, by decide, ?_, ?_, ?_⟩ <;>
    simp [segmentResults, docOf, processResult, processResultD, processWord,
      processWordD, initState, initDoc, String.empty_append,
      String.append_assoc]

/-! ## Decomposing the flat text into per-result chunks -/

theorem processWord_raw (s : SegState) (w : WordInfo) :
    (processWord s w).full_raw_text = s.full_raw_text ++ w.word ++ " " := by
  by_cases h : w.speaker_tag = s.current_speaker <;> simp [processWord, h]

theorem foldl_processWord_raw (ws : List WordInfo) (s : SegState) :
    (ws.foldl processWord s).full_raw_text =
      s.full_raw_text ++ wordsRaw ws := by
  induction ws generalizing s with
  | nil => simp [wordsRaw, String.append_empty]
  | cons w ws ih =>
      rw [List.foldl_cons, ih, processWord_raw]
      simp [wordsRaw, String.append_assoc]

theorem processResult_raw (s : SegState) (r : RecognitionResult) :
    (processResult s r).full_raw_text = s.full_raw_text ++ rawChunk r := by
  match r with
  | ⟨[]⟩ => simp [processResult, rawChunk, String.append_empty]
  | ⟨alt :: rest⟩ =>
      by_cases hw : alt.words = []
      · simp [processResult, rawChunk, hw, String.append_assoc]
      · simp only [processResult, rawChunk, hw, ne_eq, not_false_eq_true,
          ite_true]
        exact foldl_processWord_raw alt.words s

theorem segmentResults_raw (rs : List RecognitionResult) :
    (segmentResults rs).full_raw_text = flatChunks rs := by
  have key : ∀ (l : List RecognitionResult) (s : SegState),
      (l.foldl processResult s).full_raw_text =
        s.full_raw_text ++ flatChunks l := by
    intro l
    induction l with
    | nil => intro s; simp [flatChunks, String.append_empty]
    | cons r l ih =>
        intro s
        rw [List.foldl_cons, ih, processResult_raw]
        simp [flatChunks, String.append_assoc]
  rw [segmentResults, key, initState]
  exact String.empty_append _

/-! ## Counting words in the flat text -/

theorem countTokensAux_append (a b : List Char) (s : Bool) :
    countTokensAux (a ++ b) s =
      countTokensAux a s + countTokensAux b (stateAfter a s) := by
  induction a generalizing s with
  | nil => simp [countTokensAux, stateAfter]
  | cons c cs ih =>
      by_cases hc : c.isWhitespace
      · simp [countTokensAux, stateAfter, hc, ih]
      · simp [countTokensAux, stateAfter, hc, ih, Nat.add_assoc]

theorem countTokensAux_allWS (l : List Char) (s : Bool)
    (h : ∀ c ∈ l, c.isWhitespace = true) : countTokensAux l s = 0 := by
  induction l generalizing s with
  | nil => rfl
  | cons c cs ih =>
      have hc := h c (by simp)
      simp [countTokensAux, hc, ih _ (fun x hx => h x (by simp [hx]))]

theorem countTokensAux_inTok (l b : List Char)
    (h : ∀ c ∈ l, c.isWhitespace = false) :
    countTokensAux (l ++ b) true = countTokensAux b true := by
  induction l with
  | nil => rfl
  | cons c cs ih =>
      have hc := h c (by simp)
      simp only [List.cons_append, countTokensAux, hc, Bool.false_eq_true,
        ite_false, ite_true, Nat.zero_add]
      exact ih (fun x hx => h x (by simp [hx]))

theorem countTokensAux_token (l b : List Char) (hne : l ≠ [])
    (h : ∀ c ∈ l, c.isWhitespace = false) :
    countTokensAux (l ++ b) false = 1 + countTokensAux b true := by
  match l with
  | [] => exact absurd rfl hne
  | c :: cs =>
      have hc := h c (by simp)
      simp only [List.cons_append, countTokensAux, hc, Bool.false_eq_true,
        ite_false, ite_true]
      exact congrArg (HAdd.hAdd 1)
        (countTokensAux_inTok cs b (fun x hx => h x (by simp [hx])))

theorem countTokens_wordsRaw_append (ws : List WordInfo) (b : List Char)
    (h : ∀ w ∈ ws, isToken w.word = true) :
    countTokensAux ((wordsRaw ws).data ++ b) false =
      ws.length + countTokensAux b false := by
  induction ws with
  | nil => simp [wordsRaw]
  | cons w ws ih =>
      have hw := h w (by simp)
      rw [isToken, Bool.and_eq_true] at hw
      have hne : w.word.data ≠ [] := by
        intro hc
        rw [hc] at hw
        simp at hw
      have hws : ∀ c ∈ w.word.data, c.isWhitespace = false := by
        intro c hc
        have := List.all_eq_true.mp hw.2 c hc
        simpa using this
      have hdata : (wordsRaw (w :: ws)).data =
          w.word.data ++ (' ' :: (wordsRaw ws).data) := by
        simp [wordsRaw, String.data_append]
      rw [hdata, List.append_assoc, List.cons_append,
        countTokensAux_token w.word.data _ hne hws]
      have hsp : countTokensAux (' ' :: ((wordsRaw ws).data ++ b)) true =
          countTokensAux ((wordsRaw ws).data ++ b) false := by
        simp [countTokensAux]
      rw [hsp, ih (fun x hx => h x (by simp [hx]))]
      simp only [List.length_cons]
      omega

theorem countTokens_line_append (tr : String) (b : List Char) :
    countTokensAux ((tr.data ++ ['\n']) ++ b) false =
      countTokens tr.data + countTokensAux b false := by
  rw [List.append_assoc, countTokensAux_append tr.data (['\n'] ++ b) false]
  have : countTokensAux (['\n'] ++ b) (stateAfter tr.data false) =
      countTokensAux b false := by
    simp [countTokensAux]
  rw [this, countTokens]

theorem countTokens_flatChunks (rs : List RecognitionResult)
    (h : ∀ r ∈ rs, ∀ a ∈ r.alternatives, ∀ w ∈ a.words,
      isToken w.word = true) :
    countTokens (flatChunks rs).data = (rs.map resultWordCount).sum := by
  induction rs with
  | nil => rfl
  | cons r rs ih =>
      have hrest := ih (fun x hx => h x (by simp [hx]))
      have hdata : (flatChunks (r :: rs)).data =
          (rawChunk r).data ++ (flatChunks rs).data := by
        simp [flatChunks, String.data_append]
      rw [List.map_cons, List.sum_cons, countTokens, hdata]
      match r with
      | ⟨[]⟩ =>
          simp only [rawChunk, resultWordCount, List.nil_append, Nat.zero_add]
          exact hrest
      | ⟨alt :: rest⟩ =>
          by_cases hw : alt.words = []
          · simp only [rawChunk, resultWordCount, hw, ne_eq,
              not_true_eq_false, ite_false]
            have hd : (alt.transcript ++ "\n").data =
                alt.transcript.data ++ ['\n'] := by
              simp [String.data_append]
            rw [hd, countTokens_line_append]
            exact congrArg (fun n => countTokens alt.transcript.data + n) hrest
          · simp only [rawChunk, resultWordCount, hw, ne_eq,
              not_false_eq_true, ite_true]
            rw [countTokens_wordsRaw_append alt.words _
              (fun x hx => h ⟨alt :: rest⟩ (by simp) alt (by simp) x hx)]
            exact congrArg (fun n => alt.words.length + n) hrest

theorem countTokensAux_dropWhile (l : List Char) :
    countTokensAux (l.dropWhile Char.isWhitespace) false =
      countTokensAux l false := by
  induction l with
  | nil => rfl
  | cons c cs ih =>
      by_cases hc : c.isWhitespace
      · rw [List.dropWhile_cons]
        simp [hc, countTokensAux, ih]
      · rw [List.dropWhile_cons]
        simp [hc]

theorem countTokens_pyStrip (l : List Char) :
    countTokens (pyStrip l) = countTokens l := by
  have hdrop : countTokens (l.dropWhile Char.isWhitespace) = countTokens l :=
    countTokensAux_dropWhile l
  set m := l.dropWhile Char.isWhitespace with hm
  have hsplit : m = ((m.reverse.dropWhile Char.isWhitespace).reverse) ++
      ((m.reverse.takeWhile Char.isWhitespace).reverse) := by
    conv_lhs => rw [← List.reverse_reverse m,
      ← List.takeWhile_append_dropWhile (p := Char.isWhitespace)
        (l := m.reverse)]
    rw [List.reverse_append]
  have hws : ∀ c ∈ (m.reverse.takeWhile Char.isWhitespace).reverse,
      c.isWhitespace = true := by
    intro c hc
    rw [List.mem_reverse] at hc
    exact List.mem_takeWhile_imp hc
  calc countTokens (pyStrip l)
      = countTokensAux ((m.reverse.dropWhile Char.isWhitespace).reverse)
          false := rfl
    _ = countTokens m := by
        conv_rhs => rw [countTokens, hsplit]
        rw [countTokensAux_append, countTokensAux_allWS _ _ hws,
          Nat.add_zero]
    _ = countTokens l := hdrop

/-! ## Claim theorems: word conservation and tag independence -/

/-- Claim C1: when every recognized word is a single token (nonempty and
whitespace-free, as the recognizer emits them), the word count of the
FlatTranscript equals the sum, over the results, of the WordInfo count when
the top alternative has words and of the transcript word count when it has
none — no word is dropped or duplicated. -/
theorem c1_word_conservation (rs : List RecognitionResult)
    (h : ∀ r ∈ rs, ∀ a ∈ r.alternatives, ∀ w ∈ a.words,
      isToken w.word = true) :
    countTokens (flatTranscriptOf rs).data =
      (rs.map resultWordCount).sum := by
  have hs : (flatTranscriptOf rs).data =
      pyStrip (segmentResults rs).full_raw_text.data := rfl
  rw [hs, countTokens_pyStrip, segmentResults_raw]
  exact countTokens_flatChunks rs h

/-- Witness for Claim C1: one result with two words plus one
transcript-only result whose transcript holds two words gives four. -/
theorem c1_word_conservation_witness :
    countTokens (flatTranscriptOf [⟨[⟨"", [⟨"Hello", 1⟩, ⟨"there", 1⟩]⟩]⟩,
      ⟨[⟨"short phrase.", []⟩]⟩]).data = 4 := by
  have h := c1_word_conservation [⟨[⟨"", [⟨"Hello", 1⟩, ⟨"there", 1⟩]⟩]⟩,
    ⟨[⟨"short phrase.", []⟩]⟩] (by decide)
  rw [h]
  decide

/-- Claim C10: the flat transcript never depends on the speaker tags — two
inputs equal after erasing tags produce the same FlatTranscript. -/
theorem c10_flat_tag_independent (rs₁ rs₂ : List RecognitionResult)
    (h : rs₁.map eraseTag = rs₂.map eraseTag) :
    flatTranscriptOf rs₁ = flatTranscriptOf rs₂ := by
  have key : ∀ rs : List RecognitionResult,
      flatChunks (rs.map eraseTag) = flatChunks rs := by
    intro rs
    induction rs with
    | nil => rfl
    | cons r rs ih =>
        have hw : ∀ ws : List WordInfo,
            wordsRaw (ws.map eraseTagW) = wordsRaw ws := by
          intro ws
          induction ws with
          | nil => rfl
          | cons w ws ihw => simp [wordsRaw, eraseTagW, ihw]
        have hr : rawChunk (eraseTag r) = rawChunk r := by
          match r with
          | ⟨[]⟩ => rfl
          | ⟨alt :: rest⟩ =>
              by_cases hwords : alt.words = [] <;>
                simp [rawChunk, eraseTag, eraseTagA, hwords, hw alt.words]
        simp [flatChunks, hr, ih]
  rw [flatTranscriptOf, flatTranscriptOf, segmentResults_raw,
    segmentResults_raw, ← key rs₁, ← key rs₂, h]

/-- Witness for Claim C10: retagging two words from tags 1,2 to 5,5 leaves
the FlatTranscript unchanged. -/
theorem c10_flat_tag_independent_witness :
    flatTranscriptOf [⟨[⟨"", [⟨"A", 1⟩, ⟨"B", 2⟩]⟩]⟩] =
      flatTranscriptOf [⟨[⟨"", [⟨"A", 5⟩, ⟨"B", 5⟩]⟩]⟩] :=
  c10_flat_tag_independent [⟨[⟨"", [⟨"A", 1⟩, ⟨"B", 2⟩]⟩]⟩]
    [⟨[⟨"", [⟨"A", 5⟩, ⟨"B", 5⟩]⟩]⟩] (by decide)

end TSApp
